import Mathlib

/-!
Verification of the OSV vulnerability aggregation endpoint
(`server/api/osv/vulnerabilities.post.ts`) of npmx.dev.

The TypeScript source is shallowly embedded below:

* raw OSV records become Lean structures with `Option` fields for the
  optional JSON fields;
* the regular expression match used by `getSeverityLevel` is embedded as
  an explicit leftmost-match search over the character list;
* JavaScript numbers arising from `parseFloat` on the matched decimal
  literal are modelled exactly, as a scaled integer over a power-of-ten
  denominator (the matched strings are plain decimal literals, so no
  floating-point rounding behaviour is relevant to the claims checked here);
* the stable `Array.prototype.sort` (stable per the ECMAScript
  specification) is embedded as a stable insertion sort `stableSort`;
* the request handler becomes a function from an optional JSON body value
  and a fetch oracle to `Except`, where the oracle returning `none` models
  any failed upstream call (network error, bad status, malformed payload)
  and the second component of a successful result records the waves of
  upstream calls issued (one inner list per `Promise.all` batch).
-/

namespace Npmx

/-- The `OsvSeverityLevel` union type from `#shared/types`. -/
inductive OsvSeverityLevel where
  | critical
  | high
  | moderate
  | low
  | unknown
deriving DecidableEq, Repr

/-- The `severityOrder` record literal inside `queryOsvForPackage`. -/
def severityOrder : OsvSeverityLevel → Nat
  | .critical => 0
  | .high => 1
  | .moderate => 2
  | .low => 3
  | .unknown => 4

/-- One entry of an OSV record's `severity` array (only `score` is read). -/
structure SeverityEntry where
  score : Option String
deriving DecidableEq, Repr

/-- The `database_specific` object of an OSV record (only `severity` is read). -/
structure DatabaseSpecific where
  severity : Option String
deriving DecidableEq, Repr

/-- A raw OSV vulnerability record, restricted to the fields the endpoint reads. -/
structure OsvVulnerability where
  id : String
  summary : Option String
  aliases : Option (List String)
  database_specific : Option DatabaseSpecific
  severity : Option (List SeverityEntry)
deriving DecidableEq, Repr

/-- The OSV `/v1/query` response body (only `vulns` is read). -/
structure OsvQueryResponse where
  vulns : Option (List OsvVulnerability)
deriving DecidableEq, Repr

/-! ### The severity-score regular expression

`getSeverityLevel` matches `severityEntry.score` against
`/(?:^|[\x7b/:\x7d...)/` written in the source as the pattern
"(?:^|[/:])(\d+(?:\.\d+)?)$": an anchored trailing decimal number preceded
by the string start, a slash or a colon.  A match attempt at position `i`
succeeds when either `i = 0` and the whole string is a decimal literal, or
the character at `i` is a slash or colon and the rest of the string is a
decimal literal; the JavaScript engine returns the leftmost such match and
group 1 is the decimal literal. -/

/-- The character class `[/:]`. -/
def sepChar (c : Char) : Bool := c = '/' || c = ':'

/-- Does the character list match `\d+(\.\d+)?` exactly (anchored both ends)?
Because `\d+` is immediately followed by `\.` or the anchor, backtracking
cannot shorten it, so the greedy reading is the only reading. -/
def decimalStr (cs : List Char) : Bool :=
  let ds := cs.takeWhile (·.isDigit)
  let rest := cs.dropWhile (·.isDigit)
  !ds.isEmpty &&
    (rest.isEmpty ||
      (rest.head? = some '.' && !rest.tail.isEmpty && rest.tail.all (·.isDigit)))

/-- Scan for the leftmost position whose character is `/` or `:` and whose
remaining suffix is a full decimal literal; return that suffix. -/
def findFromSep : List Char → Option (List Char)
  | [] => none
  | c :: rest =>
    if sepChar c && decimalStr rest then some rest else findFromSep rest

/-- Group 1 of the leftmost match of `(?:^|[/:])(\d+(?:\.\d+)?)$`, or `none`
when the regular expression does not match.  Positions are tried left to
right; at position 0 the `^` alternative is tried first. -/
def regexCapture (cs : List Char) : Option (List Char) :=
  if decimalStr cs then some cs else findFromSep cs

/-- Numeric value of a digit list (most significant first). -/
def digitsToNat (ds : List Char) : Nat :=
  ds.foldl (fun n c => 10 * n + (c.toNat - 48)) 0

/-- The fractional digits of a string matching `\d+(\.\d+)?` (empty when
there is no dot). -/
def fracDigits (cs : List Char) : List Char :=
  (cs.dropWhile (·.isDigit)).tail

/-- Numerator of the exact value of `parseFloat` on a string matching
`\d+(\.\d+)?`: the parsed value is `parseNum cs / parseDen cs`.  The matched
string is a plain decimal literal, so `parseFloat` returns exactly this
rational (up to the usual binary rounding, which cannot move a decimal
literal across the integer thresholds 9, 7 and 4 used below, nor across 0). -/
def parseNum (cs : List Char) : Nat :=
  digitsToNat (cs.takeWhile (·.isDigit) ++ fracDigits cs)

/-- Denominator of the exact value of `parseFloat`: ten to the number of
fractional digits. -/
def parseDen (cs : List Char) : Nat :=
  10 ^ (fracDigits cs).length

/-- The numeric bucketing of the parsed CVSS score `num / den` in
`getSeverityLevel` (`score >= 9.0`, `>= 7.0`, `>= 4.0`, `> 0`); comparisons
with the integer thresholds are encoded by cross-multiplying with the
positive denominator, which is exact.  Falling through every comparison
reaches the final `return 'unknown'`. -/
def bucketScore (num den : Nat) : OsvSeverityLevel :=
  if num ≥ 9 * den then .critical
  else if num ≥ 7 * den then .high
  else if num ≥ 4 * den then .moderate
  else if num > 0 then .low
  else .unknown

/-- The CVSS fallback branch of `getSeverityLevel`: read `vuln.severity?.[0]`,
then `severityEntry?.score` (skipped when absent or empty, the JavaScript
truthiness test), then match the anchored trailing-decimal pattern. -/
def cvssFallback (vuln : OsvVulnerability) : OsvSeverityLevel :=
  match vuln.severity.bind List.head? with
  | none => .unknown
  | some entry =>
    match entry.score with
    | none => .unknown
    | some s =>
      if s.isEmpty then .unknown
      else
        match regexCapture s.data with
        | none => .unknown
        | some cs => bucketScore (parseNum cs) (parseDen cs)

/-- `String.prototype.toLowerCase`, character by character (adequate for the
ASCII severity words compared against below). -/
def toLowerStr (s : String) : String :=
  ⟨s.data.map Char.toLower⟩

/-- `getSeverityLevel` from the source: database-specific severity first
(lower-cased; an absent or empty string is falsy and skips the branch),
then the CVSS score fallback, then `unknown`. -/
def getSeverityLevel (vuln : OsvVulnerability) : OsvSeverityLevel :=
  match (vuln.database_specific.bind DatabaseSpecific.severity).map toLowerStr with
  | some dbSeverity =>
    if dbSeverity.isEmpty then cvssFallback vuln
    else if dbSeverity = "critical" then .critical
    else if dbSeverity = "high" then .high
    else if dbSeverity = "moderate" || dbSeverity = "medium" then .moderate
    else if dbSeverity = "low" then .low
    else cvssFallback vuln
  | none => cvssFallback vuln

/-! ### Stable sorting

`Array.prototype.sort` is stable (ECMAScript 2019 and later), and for a
comparator induced by a total preorder a stable sort is uniquely determined,
so the engine-chosen algorithm is embedded as a stable insertion sort. -/

/-- Insert `x` into the already-sorted list `ys`, after every element that
compares less-or-equal to `x` (so a later-arriving element lands after its
equals, which is exactly stability). -/
def insertSorted (le : α → α → Bool) (x : α) : List α → List α
  | [] => [x]
  | y :: ys => if le y x then y :: insertSorted le x ys else x :: y :: ys

/-- The stable sort of `l` by the comparator `le`. -/
def stableSort (le : α → α → Bool) (l : List α) : List α :=
  l.foldl (fun acc x => insertSorted le x acc) []

/-! ### `getVulnerabilityUrl` and the per-record summary -/

/-- `getVulnerabilityUrl` from the source: GHSA advisory page, else the NVD
page of the first CVE alias, else the generic OSV page. -/
def getVulnerabilityUrl (vuln : OsvVulnerability) : String :=
  if vuln.id.startsWith "GHSA-" then
    "https://github.com/advisories/" ++ vuln.id
  else
    match (vuln.aliases.getD []).find? (fun a => a.startsWith "CVE-") with
    | some cveAlias => "https://nvd.nist.gov/vuln/detail/" ++ cveAlias
    | none => "https://osv.dev/vulnerability/" ++ vuln.id

/-- The `VulnerabilitySummary` shape from `#shared/types`, as pushed onto
`vulnerabilities` by `queryOsvForPackage`. -/
structure VulnerabilitySummary where
  id : String
  summary : String
  severity : OsvSeverityLevel
  aliases : List String
  url : String
deriving DecidableEq, Repr

/-- The object pushed for one record: `vuln.summary || 'No description
available'` (the JavaScript or-default also replaces an empty string),
the classified severity, `vuln.aliases || []`, and the derived URL. -/
def mkSummary (vuln : OsvVulnerability) : VulnerabilitySummary :=
  { id := vuln.id
    summary :=
      match vuln.summary with
      | some s => if s.isEmpty then "No description available" else s
      | none => "No description available"
    severity := getSeverityLevel vuln
    aliases := vuln.aliases.getD []
    url := getVulnerabilityUrl vuln }

/-- The `counts` object of a per-package result. -/
structure SeverityCounts where
  total : Nat
  critical : Nat
  high : Nat
  moderate : Nat
  low : Nat
deriving DecidableEq, Repr

/-- The `if/else if` chain incrementing one named counter per record;
`unknown` increments nothing. -/
def bumpCounts (c : SeverityCounts) : OsvSeverityLevel → SeverityCounts
  | .critical => { c with critical := c.critical + 1 }
  | .high => { c with high := c.high + 1 }
  | .moderate => { c with moderate := c.moderate + 1 }
  | .low => { c with low := c.low + 1 }
  | .unknown => c

/-- The `for (const vuln of sortedVulns)` loop: thread the counts through and
collect the pushed summaries in order. -/
def processVulns (c : SeverityCounts) :
    List OsvVulnerability → SeverityCounts × List VulnerabilitySummary
  | [] => (c, [])
  | v :: rest =>
    let out := processVulns (bumpCounts c (getSeverityLevel v)) rest
    (out.1, mkSummary v :: out.2)

/-- The `PackageVulnerabilities` shape from `#shared/types`. -/
structure PackageVulnerabilities where
  package : String
  version : String
  vulnerabilities : List VulnerabilitySummary
  counts : SeverityCounts
deriving DecidableEq, Repr

/-- The comparator `(a, b) => severityOrder[getSeverityLevel(a)] -
severityOrder[getSeverityLevel(b)]`, as the total preorder it induces. -/
def vulnLE (a b : OsvVulnerability) : Bool :=
  severityOrder (getSeverityLevel a) ≤ severityOrder (getSeverityLevel b)

/-- `queryOsvForPackage`, with the upstream `$fetch` replaced by its result:
`fetchResult = none` models any failed call (the `catch` branch returns
`null`), `some response` a successful one. -/
def queryOsvForPackage (fetchResult : Option OsvQueryResponse)
    (name version : String) : Option PackageVulnerabilities :=
  match fetchResult with
  | none => none
  | some response =>
    let vulns := response.vulns.getD []
    if vulns.isEmpty then none
    else
      let sortedVulns := stableSort vulnLE vulns
      let out := processVulns
        { total := vulns.length, critical := 0, high := 0, moderate := 0, low := 0 }
        sortedVulns
      some { package := name, version := version,
             vulnerabilities := out.2, counts := out.1 }

/-! ### The request handler

The parsed JSON request body is embedded as a JavaScript value tree; the
handler validates it exactly as the source does, so type confusion in the
body is representable (a `packages` field that is not an array, entries that
are not objects, fields that are not strings). -/

/-- A parsed JSON / JavaScript value, as far as the handler inspects one. -/
inductive JsVal where
  | vUndefined
  | vNull
  | vBool (b : Bool)
  | vNum (n : Int)
  | vStr (s : String)
  | vArr (elems : List JsVal)
  | vObj (fields : List (String × JsVal))

/-- JavaScript truthiness of a value (only the cases above; numbers are
falsy exactly at zero). -/
def truthy : JsVal → Bool
  | .vUndefined => false
  | .vNull => false
  | .vBool b => b
  | .vNum n => n != 0
  | .vStr s => !s.isEmpty
  | .vArr _ => true
  | .vObj _ => true

/-- Property access `v.f`: `none` models the thrown `TypeError` on `null`
and `undefined`; on every other non-object it yields `undefined`. -/
def getProp : JsVal → String → Option JsVal
  | .vUndefined, _ => none
  | .vNull, _ => none
  | .vObj fields, f => some (((fields.find? (fun kv => kv.1 = f)).map Prod.snd).getD .vUndefined)
  | _, _ => some .vUndefined

/-- Optional chaining `v?.f`: never throws, `undefined` on `null`/`undefined`. -/
def getPropOpt : JsVal → String → JsVal
  | .vUndefined, _ => .vUndefined
  | .vNull, _ => .vUndefined
  | v, f => (getProp v f).getD .vUndefined

/-- The value of `body?.packages` (`readBody` yields `undefined` for an
absent body, embedded as `none`). -/
def packagesField (body : Option JsVal) : JsVal :=
  match body with
  | none => .vUndefined
  | some b => getPropOpt b "packages"

/-- How the handler can fail: `createError({statusCode, message})`, or an
uncaught JavaScript `TypeError` (reported by the server as a 500). -/
inductive HandlerError where
  | clientError (statusCode : Nat) (message : String)
  | typeError
deriving DecidableEq, Repr

/-- The filter predicate over one element of `body.packages`:
`pkg.name && typeof pkg.name === 'string' && pkg.version && typeof
pkg.version === 'string'`.  Property access throws on a `null` or
`undefined` element; a passing element contributes its two strings. -/
def validEntry (pkg : JsVal) : Except Unit (Option (String × String)) :=
  match getProp pkg "name", getProp pkg "version" with
  | some (.vStr n), some (.vStr v) =>
    .ok (if !n.isEmpty && !v.isEmpty then some (n, v) else none)
  | some _, some _ => .ok none
  | _, _ => .error ()

/-- `body.packages.filter(...)`, evaluating the predicate left to right and
propagating a thrown `TypeError`. -/
def filterValid : List JsVal → Except Unit (List (String × String))
  | [] => .ok []
  | e :: rest =>
    match validEntry e with
    | .error _ => .error ()
    | .ok h =>
      match filterValid rest with
      | .error _ => .error ()
      | .ok t => .ok (match h with | some p => p :: t | none => t)

/-- `const batchSize = 10`. -/
def batchSize : Nat := 10

/-- The `for (let i = 0; i < validPackages.length; i += batchSize)` loop
structure: consecutive slices of length `batchSize`, the last one shorter. -/
def chunksOf : List α → List (List α)
  | [] => []
  | x :: xs => (x :: xs).take batchSize :: chunksOf ((x :: xs).drop batchSize)
termination_by l => l.length
decreasing_by simp [batchSize]; omega

/-- `results[name] = info`: JavaScript object assignment overwrites an
existing key in place and otherwise appends a new one. -/
def insertResult (m : List (String × PackageVulnerabilities)) (k : String)
    (v : PackageVulnerabilities) : List (String × PackageVulnerabilities) :=
  if m.any (fun kv => kv.1 = k) then
    m.map (fun kv => if kv.1 = k then (k, v) else kv)
  else m ++ [(k, v)]

/-- One wave: `Promise.all` over the batch (each lookup owns its input and
result), then the merge loop `if (info) results[name] = info` strictly after
the wave completes. -/
def runWave (fetch : String → String → Option OsvQueryResponse)
    (results : List (String × PackageVulnerabilities))
    (batch : List (String × String)) : List (String × PackageVulnerabilities) :=
  (batch.map (fun pkg => (pkg.1, queryOsvForPackage (fetch pkg.1 pkg.2) pkg.1 pkg.2))).foldl
    (fun acc r =>
      match r.2 with
      | some info => insertResult acc r.1 info
      | none => acc)
    results

/-- The batched orchestration over the already-validated list: one wave per
chunk, each merged before the next starts. -/
def orchestrate (fetch : String → String → Option OsvQueryResponse)
    (validPackages : List (String × String)) : List (String × PackageVulnerabilities) :=
  (chunksOf validPackages).foldl (runWave fetch) []

/-- The event handler: a function of the parsed request body and of the
upstream fetch oracle.  A successful result carries the `results` map
(as its insertion-ordered entry list) and the list of upstream call waves
actually issued (one inner list per `Promise.all`; empty when the handler
returns before the loop).  The validation `if (!body?.packages ||
!Array.isArray(body.packages))` rejects exactly the non-array values of
`body?.packages`, because an array is always truthy. -/
def handler (body : Option JsVal) (fetch : String → String → Option OsvQueryResponse) :
    Except HandlerError
      (List (String × PackageVulnerabilities) × List (List (String × String))) :=
  match packagesField body with
  | .vArr elems =>
    match filterValid elems with
    | .error _ => .error .typeError
    | .ok validPackages =>
      if validPackages.length = 0 then .ok ([], [])
      else .ok (orchestrate fetch validPackages, chunksOf validPackages)
  | _ => .error (.clientError 400 "Request body must contain a packages array")

/-! ### The cache key (`getKey` option of `defineCachedEventHandler`)

`getKey` reads the same body and touches only `name` and `version` of each
entry, testing them for truthiness only; it is embedded over string-typed
entries.  The comparator `(a, b) => a.name.localeCompare(b.name)` is
determined by the runtime ICU collator: ECMAScript requires it to be a
consistent comparator, so the relation "compares less or ties" it induces
on names is total and transitive, but it is NOT antisymmetric — ICU ties
distinct strings differing only in completely-ignorable characters (soft
hyphen, zero-width characters, some controls).  The embedding therefore
abstracts the comparator: `getKeyWith` takes the induced Bool relation as a
parameter, and every theorem about key equality holds for all total,
transitive instances.  `codePointLe` is one admissible concrete instance,
used only to evaluate the embedding on closed inputs (for counterexamples
whose behaviour is the same under every consistent comparator). -/

/-- An entry of the request body as `getKey` reads it. -/
structure PackageQuery where
  name : String
  version : String
deriving DecidableEq, Repr

/-- Lexicographic code-point comparison of character lists (not a claim
about which order the ICU collator realises; see the section comment). -/
def lexLe : List Char → List Char → Bool
  | [], _ => true
  | _ :: _, [] => false
  | a :: as, b :: bs => if a < b then true else if b < a then false else lexLe as bs

/-- The filter `p => p.name && p.version` (truthiness of a string is
non-emptiness). -/
def pqValid (p : PackageQuery) : Bool := !p.name.isEmpty && !p.version.isEmpty

/-- The template literal rendering one entry as `name@version`. -/
def renderPQ (p : PackageQuery) : String := p.name ++ "@" ++ p.version

/-- `Array.prototype.join(',')`. -/
def joinComma : List String → String
  | [] => ""
  | [s] => s
  | s :: rest => s ++ "," ++ joinComma rest

/-- `getKey` from the handler options, parameterized by the comparator:
`lc a b` embeds `a.localeCompare(b) <= 0` for the collator the runtime
uses.  `none` embeds every request whose `body?.packages` is absent or
otherwise falsy (an empty array is truthy and is embedded as `some []`). -/
def getKeyWith (lc : String → String → Bool)
    (packages : Option (List PackageQuery)) : String :=
  match packages with
  | none => "osv:empty"
  | some pkgs =>
    "osv:v1:" ++
      joinComma ((stableSort (fun a b => lc a.name b.name)
        (pkgs.filter pqValid)).map renderPQ)

/-- The code-point instance of the comparator (total and transitive, hence
admissible; it has no ties between distinct strings, which is why theorems
about the program quantify over `lc` instead of fixing this instance). -/
def codePointLe (a b : String) : Bool := lexLe a.data b.data

/-- The embedding evaluated at the code-point instance, for computing keys
of closed inputs. -/
def getKey (packages : Option (List PackageQuery)) : String :=
  getKeyWith codePointLe packages

/-! ### Definitions following the specification text

These definitions are written from the words of the specification, not from
the source; they exist only to be compared with the source-derived
definitions above. -/

/-- Following the specification (§4.1 step 2): the trailing portion of a
score string after the last `/` or `:` (the whole string when neither
occurs). -/
def afterLastSep (cs : List Char) : List Char :=
  (cs.reverse.takeWhile (fun c => !sepChar c)).reverse

/-- Following the specification (§4.1 step 1): the database-specific
severity mapping, `none` when the value falls through. -/
def specDbSeverity (vuln : OsvVulnerability) : Option OsvSeverityLevel :=
  match (vuln.database_specific.bind DatabaseSpecific.severity).map toLowerStr with
  | none => none
  | some s =>
    if s = "critical" then some .critical
    else if s = "high" then some .high
    else if s = "moderate" then some .moderate
    else if s = "medium" then some .moderate
    else if s = "low" then some .low
    else none

/-- Following the specification (§4.1 step 2): take the trailing decimal
number after the last `/` or `:` (or from the string start), anchored to
the end of the string, parse it, and bucket it; `none` when there is no
such number or every bucket comparison fails (a score of exactly 0). -/
def specScoreSeverity (vuln : OsvVulnerability) : Option OsvSeverityLevel :=
  match vuln.severity.bind List.head? with
  | none => none
  | some entry =>
    match entry.score with
    | none => none
    | some s =>
      let t := afterLastSep s.data
      if decimalStr t then
        let num := parseNum t
        let den := parseDen t
        if num ≥ 9 * den then some .critical
        else if num ≥ 7 * den then some .high
        else if num ≥ 4 * den then some .moderate
        else if num > 0 then some .low
        else none
      else none

/-- Following the specification (§4.1): the ordered fallback chain,
first match wins, `unknown` when both steps fall through. -/
def specClassify (vuln : OsvVulnerability) : OsvSeverityLevel :=
  match specDbSeverity vuln with
  | some lvl => lvl
  | none =>
    match specScoreSeverity vuln with
    | some lvl => lvl
    | none => .unknown

/-! ### Small helper predicates used only to state theorems -/

/-- Is the value an array (`Array.isArray`)? -/
def isArrB : JsVal → Bool
  | .vArr _ => true
  | _ => false

/-- Is the value neither `null` nor `undefined` (so that property access on
it cannot throw)? -/
def notNullish : JsVal → Bool
  | .vNull => false
  | .vUndefined => false
  | _ => true

/-- Recover a `(name, version)` entry from its `name@version` rendering by
splitting at the first `@`; a left inverse of `renderPQ` whenever the name
contains no `@`. -/
def unrender (s : String) : PackageQuery :=
  { name := ⟨s.data.takeWhile (fun c => c ≠ '@')⟩
    version := ⟨(s.data.dropWhile (fun c => c ≠ '@')).tail⟩ }

/-- No character of the string is a comma. -/
def commaFree (s : String) : Bool := s.data.all (fun c => c ≠ ',')

/-- No character of the string is an `@`. -/
def atFree (s : String) : Bool := s.data.all (fun c => c ≠ '@')

/-- The character-level restriction under which the cache key is injective
in the multiset of filtered entries: no commas anywhere, no `@` in names. -/
def pqGoodChars (p : PackageQuery) : Bool :=
  commaFree p.name && commaFree p.version && atFree p.name

/-- The count of records of one classified severity level in a list. -/
def countSev (lvl : OsvSeverityLevel) (l : List OsvVulnerability) : Nat :=
  l.countP (fun v => getSeverityLevel v = lvl)

/-- The database-specific branch of `getSeverityLevel` does not fire: the
value is absent, empty, or not one of the five recognised words. -/
def dbNoMatch (v : OsvVulnerability) : Bool :=
  match (v.database_specific.bind DatabaseSpecific.severity).map toLowerStr with
  | none => true
  | some s =>
    s.isEmpty ||
      !(s = "critical" || s = "high" || s = "moderate" || s = "medium" || s = "low")

/-- The first entry of the severity list is absent, or its score is absent,
empty, or does not match the trailing-decimal pattern. -/
def headScoreUnparseable (v : OsvVulnerability) : Bool :=
  match v.severity.bind List.head? with
  | none => true
  | some entry =>
    match entry.score with
    | none => true
    | some s => s.isEmpty || (regexCapture s.data).isNone

/-- Did the handler succeed? -/
def isOkB
    (r : Except HandlerError
      (List (String × PackageVulnerabilities) × List (List (String × String)))) :
    Bool :=
  match r with
  | .ok _ => true
  | .error _ => false

/-! ### Properties of the stable insertion sort -/

theorem insertSorted_perm (le : α → α → Bool) (x : α) (ys : List α) :
    List.Perm (insertSorted le x ys) (x :: ys) := by
  induction ys with
  | nil => exact List.Perm.refl _
  | cons y ys ih =>
    simp only [insertSorted]
    split
    · exact (ih.cons y).trans (List.Perm.swap x y ys)
    · exact List.Perm.refl _

theorem insertSorted_pairwise (le : α → α → Bool)
    (htrans : ∀ a b c, le a b = true → le b c = true → le a c = true)
    (htotal : ∀ a b, le a b = true ∨ le b a = true)
    (x : α) (ys : List α) (h : ys.Pairwise (fun a b => le a b = true)) :
    (insertSorted le x ys).Pairwise (fun a b => le a b = true) := by
  induction ys with
  | nil => simp [insertSorted]
  | cons y ys ih =>
    rw [List.pairwise_cons] at h
    simp only [insertSorted]
    split
    · rename_i hyx
      rw [List.pairwise_cons]
      refine ⟨fun z hz => ?_, ih h.2⟩
      rcases List.mem_cons.mp ((insertSorted_perm le x ys).mem_iff.mp hz) with rfl | hz
      · exact hyx
      · exact h.1 z hz
    · rename_i hyx
      have hxy : le x y = true := (htotal x y).resolve_right (by simpa using hyx)
      refine List.pairwise_cons.mpr ⟨fun z hz => ?_, List.pairwise_cons.mpr h⟩
      rcases List.mem_cons.mp hz with rfl | hz
      · exact hxy
      · exact htrans x y z hxy (h.1 z hz)

theorem foldl_insert_perm (le : α → α → Bool) :
    ∀ (l acc : List α),
      List.Perm (l.foldl (fun acc x => insertSorted le x acc) acc) (acc ++ l) := by
  intro l
  induction l with
  | nil => simp
  | cons x l ih =>
    intro acc
    have h1 := ih (insertSorted le x acc)
    have h2 : List.Perm (insertSorted le x acc ++ l) ((x :: acc) ++ l) :=
      (insertSorted_perm le x acc).append_right l
    have h3 : List.Perm ((x :: acc) ++ l) (acc ++ x :: l) := List.perm_middle.symm
    exact (h1.trans h2).trans h3

theorem stableSort_perm (le : α → α → Bool) (l : List α) :
    List.Perm (stableSort le l) l := by
  simpa using foldl_insert_perm le l []

theorem stableSort_pairwise (le : α → α → Bool)
    (htrans : ∀ a b c, le a b = true → le b c = true → le a c = true)
    (htotal : ∀ a b, le a b = true ∨ le b a = true)
    (l : List α) :
    (stableSort le l).Pairwise (fun a b => le a b = true) := by
  have aux : ∀ (l acc : List α), acc.Pairwise (fun a b => le a b = true) →
      (l.foldl (fun acc x => insertSorted le x acc) acc).Pairwise
        (fun a b => le a b = true) := by
    intro l
    induction l with
    | nil => intro acc h; simpa using h
    | cons x l ih =>
      intro acc h
      exact ih _ (insertSorted_pairwise le htrans htotal x acc h)
  simpa [stableSort] using aux l [] (by simp)

theorem insertSorted_filter_pos (le : α → α → Bool) (p : α → Bool)
    (htrans : ∀ a b c, le a b = true → le b c = true → le a c = true)
    (hcomp : ∀ a b, p a = true → p b = true → le a b = true)
    (x : α) (hpx : p x = true) :
    ∀ (ys : List α), ys.Pairwise (fun a b => le a b = true) →
      (insertSorted le x ys).filter p = ys.filter p ++ [x] := by
  intro ys
  induction ys with
  | nil => simp [insertSorted, hpx]
  | cons y ys ih =>
    intro h
    rw [List.pairwise_cons] at h
    simp only [insertSorted]
    split
    · rcases hpy : p y with _ | _ <;>
        simp [List.filter_cons, hpy, ih h.2]
    · rename_i hyx
      have hnone : (y :: ys).filter p = [] := by
        rw [List.filter_eq_nil_iff]
        intro z hz
        rcases List.mem_cons.mp hz with rfl | hz
        · intro hpz
          exact hyx (hcomp z x hpz hpx)
        · intro hpz
          exact hyx (htrans y z x (h.1 z hz) (hcomp z x hpz hpx))
      rw [show ((x :: y :: ys).filter p = x :: (y :: ys).filter p) by
            simp [List.filter_cons, hpx], hnone]
      rfl

theorem insertSorted_filter_neg (le : α → α → Bool) (p : α → Bool)
    (x : α) (hpx : p x = false) :
    ∀ (ys : List α), (insertSorted le x ys).filter p = ys.filter p := by
  intro ys
  induction ys with
  | nil => simp [insertSorted, hpx]
  | cons y ys ih =>
    simp only [insertSorted]
    split
    · rcases hpy : p y with _ | _ <;> simp [List.filter_cons, hpy, ih]
    · simp [List.filter_cons, hpx]

theorem stableSort_filter (le : α → α → Bool) (p : α → Bool)
    (htrans : ∀ a b c, le a b = true → le b c = true → le a c = true)
    (htotal : ∀ a b, le a b = true ∨ le b a = true)
    (hcomp : ∀ a b, p a = true → p b = true → le a b = true)
    (l : List α) :
    (stableSort le l).filter p = l.filter p := by
  have aux : ∀ (l acc : List α), acc.Pairwise (fun a b => le a b = true) →
      (l.foldl (fun acc x => insertSorted le x acc) acc).filter p =
        acc.filter p ++ l.filter p := by
    intro l
    induction l with
    | nil => intro acc _; simp
    | cons x l ih =>
      intro acc h
      have hstep := ih (insertSorted le x acc)
        (insertSorted_pairwise le htrans htotal x acc h)
      rcases hpx : p x with _ | _
      · rw [show ((x :: l).foldl (fun acc x => insertSorted le x acc) acc) =
              l.foldl (fun acc x => insertSorted le x acc) (insertSorted le x acc) from rfl,
          hstep, insertSorted_filter_neg le p x hpx acc]
        simp [List.filter_cons, hpx]
      · rw [show ((x :: l).foldl (fun acc x => insertSorted le x acc) acc) =
              l.foldl (fun acc x => insertSorted le x acc) (insertSorted le x acc) from rfl,
          hstep, insertSorted_filter_pos le p htrans hcomp x hpx acc h]
        simp [List.filter_cons, hpx]
  simpa [stableSort] using aux l [] (by simp)

/-- Two sorted lists that are permutations of each other and whose elements
are pairwise distinguished by the comparator are equal (sortedness plus
stability data determines the list). -/
theorem eq_of_perm_of_sorted_of_unique (le : α → α → Bool) :
    ∀ (l₁ l₂ : List α), List.Perm l₁ l₂ →
      l₁.Pairwise (fun a b => le a b = true) →
      l₂.Pairwise (fun a b => le a b = true) →
      (∀ a ∈ l₁, ∀ b ∈ l₁, le a b = true → le b a = true → a = b) →
      l₁ = l₂ := by
  intro l₁
  induction l₁ with
  | nil =>
    intro l₂ hp _ _ _
    exact hp.nil_eq
  | cons x xs ih =>
    intro l₂ hp h₁ h₂ huniq
    rcases l₂ with _ | ⟨y, ys⟩
    · exact absurd hp.symm.nil_eq (by simp)
    have hxy : x = y := by
      by_cases hxy : x = y
      · exact hxy
      · have hy₁ : y ∈ x :: xs := hp.symm.subset (by simp)
        have hx₂ : x ∈ y :: ys := hp.subset (by simp)
        have hymem : y ∈ xs := by
          rcases List.mem_cons.mp hy₁ with h | h
          · exact absurd h.symm hxy
          · exact h
        have hxmem : x ∈ ys := by
          rcases List.mem_cons.mp hx₂ with h | h
          · exact absurd h hxy
          · exact h
        have hle₁ : le x y = true := (List.pairwise_cons.mp h₁).1 y hymem
        have hle₂ : le y x = true := (List.pairwise_cons.mp h₂).1 x hxmem
        exact huniq x (by simp) y (by simp [hymem]) hle₁ hle₂
    subst hxy
    have htail := hp.cons_inv
    have := ih ys htail (List.pairwise_cons.mp h₁).2 (List.pairwise_cons.mp h₂).2
      (fun a ha b hb => huniq a (by simp [ha]) b (by simp [hb]))
    rw [this]

/-! ### The lexicographic comparator -/

theorem lexLe_cons (a b : Char) (as bs : List Char) :
    lexLe (a :: as) (b :: bs) = true ↔ a < b ∨ (a = b ∧ lexLe as bs = true) := by
  simp only [lexLe]
  split
  · rename_i h
    simp [h]
  · split
    · rename_i hab hba
      constructor
      · intro h
        cases h
      · rintro (h | ⟨rfl, h⟩)
        · exact absurd h hab
        · exact absurd hba (lt_irrefl a)
    · rename_i hab hba
      have : a = b := le_antisymm (not_lt.mp hba) (not_lt.mp hab)
      simp [this, hab]

theorem lexLe_total : ∀ (a b : List Char), lexLe a b = true ∨ lexLe b a = true := by
  intro a
  induction a with
  | nil => intro b; left; rfl
  | cons x as ih =>
    intro b
    rcases b with _ | ⟨y, bs⟩
    · right; rfl
    rcases lt_trichotomy x y with h | h | h
    · left
      exact (lexLe_cons x y as bs).mpr (Or.inl h)
    · subst h
      rcases ih bs with h | h
      · left
        exact (lexLe_cons x x as bs).mpr (Or.inr ⟨rfl, h⟩)
      · right
        exact (lexLe_cons x x bs as).mpr (Or.inr ⟨rfl, h⟩)
    · right
      exact (lexLe_cons y x bs as).mpr (Or.inl h)

theorem lexLe_trans :
    ∀ (a b c : List Char), lexLe a b = true → lexLe b c = true → lexLe a c = true := by
  intro a
  induction a with
  | nil => intro b c _ _; rfl
  | cons x as ih =>
    intro b c hab hbc
    rcases b with _ | ⟨y, bs⟩
    · cases hab
    rcases c with _ | ⟨z, cs⟩
    · cases hbc
    rcases (lexLe_cons x y as bs).mp hab with h₁ | ⟨rfl, h₁⟩
    · rcases (lexLe_cons y z bs cs).mp hbc with h₂ | ⟨rfl, h₂⟩
      · exact (lexLe_cons x z as cs).mpr (Or.inl (lt_trans h₁ h₂))
      · exact (lexLe_cons x y as cs).mpr (Or.inl h₁)
    · rcases (lexLe_cons x z bs cs).mp hbc with h₂ | ⟨rfl, h₂⟩
      · exact (lexLe_cons x z as cs).mpr (Or.inl h₂)
      · exact (lexLe_cons x x as cs).mpr (Or.inr ⟨rfl, ih bs cs h₁ h₂⟩)

theorem lexLe_antisymm :
    ∀ (a b : List Char), lexLe a b = true → lexLe b a = true → a = b := by
  intro a
  induction a with
  | nil =>
    intro b _ hba
    rcases b with _ | ⟨y, bs⟩
    · rfl
    · cases hba
  | cons x as ih =>
    intro b hab hba
    rcases b with _ | ⟨y, bs⟩
    · cases hab
    rcases (lexLe_cons x y as bs).mp hab with h₁ | ⟨rfl, h₁⟩
    · rcases (lexLe_cons y x bs as).mp hba with h₂ | ⟨heq, h₂⟩
      · exact absurd h₂ (lt_asymm h₁)
      · exact absurd h₁ (heq ▸ lt_irrefl y)
    · rcases (lexLe_cons x x bs as).mp hba with h₂ | ⟨_, h₂⟩
      · exact absurd h₂ (lt_irrefl x)
      · rw [ih bs h₁ h₂]

theorem codePointLe_trans (a b c : String) :
    codePointLe a b = true → codePointLe b c = true → codePointLe a c = true :=
  lexLe_trans a.data b.data c.data

theorem codePointLe_total (a b : String) :
    codePointLe a b = true ∨ codePointLe b a = true :=
  lexLe_total a.data b.data

theorem vulnLE_trans (a b c : OsvVulnerability) :
    vulnLE a b = true → vulnLE b c = true → vulnLE a c = true := by
  simp only [vulnLE, decide_eq_true_eq]
  exact Nat.le_trans

theorem vulnLE_total (a b : OsvVulnerability) :
    vulnLE a b = true ∨ vulnLE b a = true := by
  simp only [vulnLE, decide_eq_true_eq]
  exact Nat.le_total _ _

/-! ### The per-package aggregation loop -/

theorem processVulns_snd (c : SeverityCounts) (l : List OsvVulnerability) :
    (processVulns c l).2 = l.map mkSummary := by
  induction l generalizing c with
  | nil => rfl
  | cons v l ih => simp [processVulns, ih]

theorem processVulns_total (c : SeverityCounts) (l : List OsvVulnerability) :
    (processVulns c l).1.total = c.total := by
  induction l generalizing c with
  | nil => rfl
  | cons v l ih =>
    rcases h : getSeverityLevel v <;> simp [processVulns, bumpCounts, h, ih]

theorem processVulns_critical (c : SeverityCounts) (l : List OsvVulnerability) :
    (processVulns c l).1.critical = c.critical + countSev .critical l := by
  induction l generalizing c with
  | nil => simp [countSev, processVulns]
  | cons v l ih =>
    rcases h : getSeverityLevel v <;>
      simp [processVulns, bumpCounts, h, ih, countSev, List.countP_cons] <;> omega

theorem processVulns_high (c : SeverityCounts) (l : List OsvVulnerability) :
    (processVulns c l).1.high = c.high + countSev .high l := by
  induction l generalizing c with
  | nil => simp [countSev, processVulns]
  | cons v l ih =>
    rcases h : getSeverityLevel v <;>
      simp [processVulns, bumpCounts, h, ih, countSev, List.countP_cons] <;> omega

theorem processVulns_moderate (c : SeverityCounts) (l : List OsvVulnerability) :
    (processVulns c l).1.moderate = c.moderate + countSev .moderate l := by
  induction l generalizing c with
  | nil => simp [countSev, processVulns]
  | cons v l ih =>
    rcases h : getSeverityLevel v <;>
      simp [processVulns, bumpCounts, h, ih, countSev, List.countP_cons] <;> omega

theorem processVulns_low (c : SeverityCounts) (l : List OsvVulnerability) :
    (processVulns c l).1.low = c.low + countSev .low l := by
  induction l generalizing c with
  | nil => simp [countSev, processVulns]
  | cons v l ih =>
    rcases h : getSeverityLevel v <;>
      simp [processVulns, bumpCounts, h, ih, countSev, List.countP_cons] <;> omega

theorem countSev_sum (l : List OsvVulnerability) :
    countSev .critical l + countSev .high l + countSev .moderate l +
      countSev .low l + countSev .unknown l = l.length := by
  induction l with
  | nil => simp [countSev]
  | cons v l ih =>
    rcases h : getSeverityLevel v <;>
      simp only [countSev, List.countP_cons, h, List.length_cons] at ih ⊢ <;>
      simp <;> omega

/-! ### The leftmost regex match is the tail after the last separator -/

theorem sep_not_digit (c : Char) (h : c.isDigit = true) : sepChar c = false := by
  rcases hc : sepChar c with _ | _
  · rfl
  · exfalso
    simp only [sepChar, Bool.or_eq_true, decide_eq_true_eq] at hc
    rcases hc with rfl | rfl <;> exact absurd h (by decide)

theorem decimalStr_no_sep (cs : List Char) (h : decimalStr cs = true) :
    ∀ c ∈ cs, sepChar c = false := by
  intro c hc
  rw [← List.takeWhile_append_dropWhile (p := fun c => c.isDigit) (l := cs)] at hc
  rcases List.mem_append.mp hc with hmem | hmem
  · exact sep_not_digit c (List.mem_takeWhile_imp hmem)
  · rcases hdrop : cs.dropWhile (fun c => c.isDigit) with _ | ⟨d, rest⟩
    · rw [hdrop] at hmem
      cases hmem
    · rw [hdrop] at hmem
      simp only [decimalStr, hdrop, List.isEmpty_cons, List.head?_cons,
        List.tail_cons, Bool.and_eq_true, Bool.or_eq_true, List.all_eq_true,
        decide_eq_true_eq, Option.some.injEq, Bool.not_eq_true] at h
      rcases List.mem_cons.mp hmem with rfl | hmem
      · have hd : c = '.' := by tauto
        rw [hd]
        rfl
      · have hall : ∀ x ∈ rest, x.isDigit = true := by tauto
        exact sep_not_digit c (hall c hmem)

theorem afterLastSep_of_no_sep (cs : List Char)
    (h : ∀ c ∈ cs, sepChar c = false) : afterLastSep cs = cs := by
  have : cs.reverse.takeWhile (fun c => !sepChar c) = cs.reverse := by
    rw [List.takeWhile_eq_self_iff]
    intro c hc
    simp [h c (List.mem_reverse.mp hc)]
  rw [afterLastSep, this, List.reverse_reverse]

theorem findFromSep_of_no_sep (cs : List Char)
    (h : ∀ c ∈ cs, sepChar c = false) : findFromSep cs = none := by
  induction cs with
  | nil => rfl
  | cons c rest ih =>
    simp only [findFromSep, h c (by simp), Bool.false_and, Bool.false_eq_true,
      if_false]
    exact ih (fun x hx => h x (by simp [hx]))

theorem exists_last_sep (cs : List Char) (h : cs.any sepChar = true) :
    ∃ pre d, sepChar d = true ∧ cs = pre ++ d :: afterLastSep cs ∧
      (∀ c ∈ afterLastSep cs, sepChar c = false) := by
  have hdrop_ne : cs.reverse.dropWhile (fun c => !sepChar c) ≠ [] := by
    intro hnil
    rw [List.dropWhile_eq_nil_iff] at hnil
    rcases List.any_eq_true.mp h with ⟨d, hd, hsep⟩
    have := hnil d (List.mem_reverse.mpr hd)
    simp [hsep] at this
  rcases hdrop : cs.reverse.dropWhile (fun c => !sepChar c) with _ | ⟨d, r⟩
  · exact absurd hdrop hdrop_ne
  have hsep : sepChar d = true := by
    have hnot := List.head_dropWhile_not (fun c => !sepChar c) cs.reverse hdrop_ne
    have hhead : (cs.reverse.dropWhile (fun c => !sepChar c)).head hdrop_ne = d := by
      have h1 : (cs.reverse.dropWhile (fun c => !sepChar c)).head? = some d := by
        rw [hdrop]
        rfl
      rw [List.head?_eq_head hdrop_ne] at h1
      exact Option.some.inj h1
    rw [hhead] at hnot
    simpa using hnot
  refine ⟨r.reverse, d, hsep, ?_, ?_⟩
  · have hsplit := List.takeWhile_append_dropWhile (fun c => !sepChar c) cs.reverse
    rw [hdrop] at hsplit
    calc cs = cs.reverse.reverse := (List.reverse_reverse cs).symm
      _ = (cs.reverse.takeWhile (fun c => !sepChar c) ++ d :: r).reverse := by
          rw [hsplit]
      _ = r.reverse ++ d :: afterLastSep cs := by
          rw [List.reverse_append, afterLastSep]
          simp
  · intro c hc
    have hc' : c ∈ (cs.reverse.takeWhile (fun c => !sepChar c)).reverse := hc
    have := List.mem_takeWhile_imp (List.mem_reverse.mp hc')
    simpa using this

theorem findFromSep_append (pre : List Char) (d : Char) (suff : List Char)
    (hd : sepChar d = true) (hsuff : ∀ c ∈ suff, sepChar c = false) :
    findFromSep (pre ++ d :: suff) =
      if decimalStr suff then some suff else none := by
  induction pre with
  | nil =>
    simp only [List.nil_append, findFromSep, hd, Bool.true_and]
    split
    · rename_i hdec
      simp [hdec]
    · rename_i hdec
      rw [Bool.not_eq_true] at hdec
      simp [hdec, findFromSep_of_no_sep suff hsuff]
  | cons p pre ih =>
    have hdec : decimalStr (pre ++ d :: suff) = false := by
      rcases hdc : decimalStr (pre ++ d :: suff) with _ | _
      · rfl
      · have := decimalStr_no_sep _ hdc d (by simp)
        rw [this] at hd
        cases hd
    simp only [List.cons_append, findFromSep, List.append_eq, hdec,
      Bool.and_false, Bool.false_eq_true, if_false]
    exact ih

theorem regexCapture_eq_afterLastSep (cs : List Char) :
    regexCapture cs =
      if decimalStr (afterLastSep cs) then some (afterLastSep cs) else none := by
  rcases hany : cs.any sepChar with _ | _
  · have hno : ∀ c ∈ cs, sepChar c = false := by
      intro c hc
      rcases hsc : sepChar c with _ | _
      · rfl
      · exact absurd (List.any_eq_true.mpr ⟨c, hc, hsc⟩) (by simp [hany])
    rw [regexCapture, afterLastSep_of_no_sep cs hno, findFromSep_of_no_sep cs hno]
  · obtain ⟨pre, d, hd, hsplit, hsuff⟩ := exists_last_sep cs hany
    have hdec : decimalStr cs = false := by
      rcases hdc : decimalStr cs with _ | _
      · rfl
      · have := decimalStr_no_sep _ hdc d (by rw [hsplit]; simp)
        rw [this] at hd
        cases hd
    rw [regexCapture, hdec]
    simp only [Bool.false_eq_true, if_false]
    calc findFromSep cs = findFromSep (pre ++ d :: afterLastSep cs) := by rw [← hsplit]
      _ = if decimalStr (afterLastSep cs) then some (afterLastSep cs) else none :=
          findFromSep_append pre d (afterLastSep cs) hd hsuff

/-! ### The classifier agrees with the specification chain -/

theorem cvssFallback_eq_spec (v : OsvVulnerability) :
    cvssFallback v =
      match specScoreSeverity v with
      | some lvl => lvl
      | none => OsvSeverityLevel.unknown := by
  rcases hsev : v.severity.bind List.head? with _ | entry
  · simp [cvssFallback, specScoreSeverity, hsev]
  · rcases hsc : entry.score with _ | s
    · simp [cvssFallback, specScoreSeverity, hsev, hsc]
    · rcases hs : s.isEmpty with _ | _
      · simp only [cvssFallback, specScoreSeverity, hsev, hsc, hs,
          Bool.false_eq_true, if_false, regexCapture_eq_afterLastSep]
        rcases hdec : decimalStr (afterLastSep s.data) with _ | _
        · simp [hdec]
        · simp only [hdec, if_true]
          rw [bucketScore]
          split_ifs <;> rfl
      · have hse : s = "" := String.isEmpty_iff s |>.mp hs
        subst hse
        simp only [cvssFallback, specScoreSeverity, hsev, hsc]
        decide

theorem getSeverityLevel_eq_specClassify (v : OsvVulnerability) :
    getSeverityLevel v = specClassify v := by
  rcases hdb : (v.database_specific.bind DatabaseSpecific.severity).map toLowerStr
    with _ | s
  · simp only [getSeverityLevel, specClassify, specDbSeverity, hdb]
    exact cvssFallback_eq_spec v
  · rcases hs : s.isEmpty with _ | _
    · simp only [getSeverityLevel, specClassify, specDbSeverity, hdb, hs,
        Bool.false_eq_true, if_false]
      split_ifs <;>
        first
          | rfl
          | (exact cvssFallback_eq_spec v)
          | simp_all
    · have hse : s = "" := String.isEmpty_iff s |>.mp hs
      subst hse
      simp only [getSeverityLevel, specClassify, specDbSeverity, hdb]
      have hnc : ("" = "critical") = False := by simp
      have hnh : ("" = "high") = False := by simp
      have hnm : ("" = "moderate") = False := by simp
      have hnd : ("" = "medium") = False := by simp
      have hnl : ("" = "low") = False := by simp
      simp only [hnc, hnh, hnm, hnd, hnl, String.isEmpty, if_true, if_false,
        decide_False, Bool.or_self, Bool.false_eq_true]
      simp
      exact cvssFallback_eq_spec v

/-! ### The orchestration: chunks, waves and the result map -/

theorem chunksOf_nil : chunksOf ([] : List α) = [] := by
  rw [chunksOf]

theorem chunksOf_ne_nil_eq (l : List α) (h : l ≠ []) :
    chunksOf l = l.take batchSize :: chunksOf (l.drop batchSize) := by
  rcases l with _ | ⟨x, xs⟩
  · exact absurd rfl h
  · rw [chunksOf]

theorem chunksOf_flatten (l : List α) : (chunksOf l).flatten = l := by
  have aux : ∀ (n : Nat) (l : List α), l.length ≤ n → (chunksOf l).flatten = l := by
    intro n
    induction n with
    | zero =>
      intro l hl
      have : l = [] := List.eq_nil_of_length_eq_zero (Nat.le_zero.mp hl)
      subst this
      rw [chunksOf]
      rfl
    | succ n ih =>
      intro l hl
      rcases l with _ | ⟨x, xs⟩
      · rw [chunksOf]
        rfl
      · rw [chunksOf_ne_nil_eq _ (by simp), List.flatten_cons,
          ih ((x :: xs).drop batchSize)
            (by simp [batchSize, List.length_drop] at hl ⊢; omega)]
        exact List.take_append_drop batchSize (x :: xs)
  exact aux l.length l (Nat.le_refl _)

theorem mem_chunksOf (a : α) (l : List α) :
    a ∈ l ↔ ∃ w ∈ chunksOf l, a ∈ w := by
  conv_lhs => rw [← chunksOf_flatten l]
  exact List.mem_flatten

theorem insertResult_keys (m : List (String × PackageVulnerabilities)) (k : String)
    (v : PackageVulnerabilities) (n : String) :
    n ∈ (insertResult m k v).map Prod.fst ↔ n ∈ m.map Prod.fst ∨ n = k := by
  rw [insertResult]
  split
  · rename_i hany
    have hkeys : (m.map (fun kv => if kv.1 = k then (k, v) else kv)).map Prod.fst =
        m.map Prod.fst := by
      rw [List.map_map]
      apply List.map_congr_left
      intro kv _
      by_cases h : kv.1 = k
      · simp [h]
      · simp [h]
    rw [hkeys]
    constructor
    · exact Or.inl
    · rintro (h | rfl)
      · exact h
      · rcases List.any_eq_true.mp hany with ⟨kv, hkv, hk⟩
        simp only [decide_eq_true_eq] at hk
        exact List.mem_map.mpr ⟨kv, hkv, hk⟩
  · simp [List.map_append]

theorem runWave_cons (fetch : String → String → Option OsvQueryResponse)
    (m : List (String × PackageVulnerabilities)) (pkg : String × String)
    (batch : List (String × String)) :
    runWave fetch m (pkg :: batch) =
      runWave fetch
        (match queryOsvForPackage (fetch pkg.1 pkg.2) pkg.1 pkg.2 with
         | some info => insertResult m pkg.1 info
         | none => m) batch := rfl

theorem runWave_keys (fetch : String → String → Option OsvQueryResponse) :
    ∀ (batch : List (String × String)) (m : List (String × PackageVulnerabilities))
      (n : String),
      n ∈ (runWave fetch m batch).map Prod.fst ↔
        n ∈ m.map Prod.fst ∨
          ∃ v, (n, v) ∈ batch ∧ queryOsvForPackage (fetch n v) n v ≠ none := by
  intro batch
  induction batch with
  | nil => simp [runWave]
  | cons pkg batch ih =>
    intro m n
    rw [runWave_cons]
    rcases hq : queryOsvForPackage (fetch pkg.1 pkg.2) pkg.1 pkg.2 with _ | info
    · simp only [hq]
      rw [ih]
      constructor
      · rintro (h | ⟨v, hv, hsucc⟩)
        · exact Or.inl h
        · exact Or.inr ⟨v, List.mem_cons_of_mem _ hv, hsucc⟩
      · rintro (h | ⟨v, hv, hsucc⟩)
        · exact Or.inl h
        · rcases List.mem_cons.mp hv with heq | hv
          · exfalso
            have : pkg = (n, v) := heq.symm
            subst this
            exact hsucc hq
          · exact Or.inr ⟨v, hv, hsucc⟩
    · simp only [hq]
      rw [ih, insertResult_keys]
      constructor
      · rintro ((h | rfl) | ⟨v, hv, hsucc⟩)
        · exact Or.inl h
        · exact Or.inr ⟨pkg.2, by simp, by simp [hq]⟩
        · exact Or.inr ⟨v, List.mem_cons_of_mem _ hv, hsucc⟩
      · rintro (h | ⟨v, hv, hsucc⟩)
        · exact Or.inl (Or.inl h)
        · rcases List.mem_cons.mp hv with heq | hv
          · have : pkg = (n, v) := heq.symm
            subst this
            exact Or.inl (Or.inr rfl)
          · exact Or.inr ⟨v, hv, hsucc⟩

theorem foldl_runWave_keys (fetch : String → String → Option OsvQueryResponse) :
    ∀ (ws : List (List (String × String)))
      (m : List (String × PackageVulnerabilities)) (n : String),
      n ∈ (ws.foldl (runWave fetch) m).map Prod.fst ↔
        n ∈ m.map Prod.fst ∨
          ∃ w ∈ ws, ∃ v, (n, v) ∈ w ∧ queryOsvForPackage (fetch n v) n v ≠ none := by
  intro ws
  induction ws with
  | nil => simp
  | cons w ws ih =>
    intro m n
    rw [List.foldl_cons, ih, runWave_keys]
    constructor
    · rintro ((h | ⟨v, hv, hsucc⟩) | ⟨w', hw', v, hv, hsucc⟩)
      · exact Or.inl h
      · exact Or.inr ⟨w, by simp, v, hv, hsucc⟩
      · exact Or.inr ⟨w', List.mem_cons_of_mem _ hw', v, hv, hsucc⟩
    · rintro (h | ⟨w', hw', v, hv, hsucc⟩)
      · exact Or.inl (Or.inl h)
      · rcases List.mem_cons.mp hw' with rfl | hw'
        · exact Or.inl (Or.inr ⟨v, hv, hsucc⟩)
        · exact Or.inr ⟨w', hw', v, hv, hsucc⟩

theorem orchestrate_keys (fetch : String → String → Option OsvQueryResponse)
    (valid : List (String × String)) (n : String) :
    n ∈ (orchestrate fetch valid).map Prod.fst ↔
      ∃ v, (n, v) ∈ valid ∧ queryOsvForPackage (fetch n v) n v ≠ none := by
  rw [orchestrate, foldl_runWave_keys]
  simp only [List.map_nil, List.not_mem_nil, false_or]
  constructor
  · rintro ⟨w, hw, v, hv, hsucc⟩
    exact ⟨v, (mem_chunksOf (n, v) valid).mpr ⟨w, hw, hv⟩, hsucc⟩
  · rintro ⟨v, hv, hsucc⟩
    rcases (mem_chunksOf (n, v) valid).mp hv with ⟨w, hw, hvw⟩
    exact ⟨w, hw, v, hvw, hsucc⟩

/-! ### Handler case analysis -/

theorem handler_of_not_array (body : Option JsVal)
    (fetch : String → String → Option OsvQueryResponse)
    (h : isArrB (packagesField body) = false) :
    handler body fetch =
      .error (.clientError 400 "Request body must contain a packages array") := by
  rcases hb : packagesField body with _ | _ | b | n | str | elems | fields <;>
    rw [handler, hb] <;> simp [isArrB, hb] at h ⊢

theorem validEntry_ok (e : JsVal) (h : notNullish e = true) :
    ∃ r, validEntry e = .ok r := by
  have hname : ∃ a, getProp e "name" = some a := by
    cases e <;> simp [getProp, notNullish] at h ⊢
  have hver : ∃ b, getProp e "version" = some b := by
    cases e <;> simp [getProp, notNullish] at h ⊢
  obtain ⟨a, ha⟩ := hname
  obtain ⟨b, hb⟩ := hver
  rw [validEntry, ha, hb]
  cases a <;> cases b <;> exact ⟨_, rfl⟩

theorem filterValid_ok (elems : List JsVal)
    (h : ∀ e ∈ elems, notNullish e = true) :
    ∃ valid, filterValid elems = .ok valid := by
  induction elems with
  | nil => exact ⟨[], rfl⟩
  | cons e rest ih =>
    obtain ⟨r, hr⟩ := validEntry_ok e (h e (by simp))
    obtain ⟨valid, hv⟩ := ih (fun x hx => h x (by simp [hx]))
    rw [filterValid, hr, hv]
    exact ⟨_, rfl⟩

theorem handler_of_array_ok (body : Option JsVal)
    (fetch : String → String → Option OsvQueryResponse) (elems : List JsVal)
    (harr : packagesField body = .vArr elems)
    (hnn : ∀ e ∈ elems, notNullish e = true) :
    ∃ out, handler body fetch = .ok out := by
  obtain ⟨valid, hv⟩ := filterValid_ok elems hnn
  simp only [handler, harr, hv]
  by_cases hlen : valid.length = 0
  · rw [if_pos hlen]
    exact ⟨_, rfl⟩
  · rw [if_neg hlen]
    exact ⟨_, rfl⟩

theorem handler_of_empty (body : Option JsVal)
    (fetch : String → String → Option OsvQueryResponse)
    (h : packagesField body = .vArr []) :
    handler body fetch = .ok ([], []) := by
  rw [handler, h]
  rfl

theorem handler_of_valid (body : Option JsVal)
    (fetch : String → String → Option OsvQueryResponse) (elems : List JsVal)
    (valid : List (String × String)) (harr : packagesField body = .vArr elems)
    (hfv : filterValid elems = .ok valid) (hne : valid ≠ []) :
    handler body fetch = .ok (orchestrate fetch valid, chunksOf valid) := by
  simp only [handler, harr, hfv]
  rw [if_neg (by simpa [List.length_eq_zero] using hne)]

theorem chunksOf_sizes_23 (valid : List (String × String)) (h : valid.length = 23) :
    (chunksOf valid).map List.length = [10, 10, 3] := by
  have h1 : valid ≠ [] := by
    intro he
    rw [he] at h
    cases h
  rw [chunksOf_ne_nil_eq valid h1]
  have hd1 : (valid.drop batchSize).length = 13 := by
    simp [batchSize, h]
  have h2 : valid.drop batchSize ≠ [] := by
    intro he
    rw [he] at hd1
    cases hd1
  rw [chunksOf_ne_nil_eq _ h2]
  have hd2 : ((valid.drop batchSize).drop batchSize).length = 3 := by
    simp [batchSize, h]
  have h3 : (valid.drop batchSize).drop batchSize ≠ [] := by
    intro he
    rw [he] at hd2
    cases hd2
  rw [chunksOf_ne_nil_eq _ h3]
  have h4 : ((valid.drop batchSize).drop batchSize).drop batchSize = [] := by
    apply List.eq_nil_of_length_eq_zero
    simp [batchSize, h]
  rw [h4, chunksOf_nil]
  simp [List.length_take, List.length_drop, h, batchSize]

/-! ### Cache-key lemmas -/

theorem takeWhile_append_all (p : α → Bool) (l₁ l₂ : List α)
    (h : ∀ c ∈ l₁, p c = true) :
    (l₁ ++ l₂).takeWhile p = l₁ ++ l₂.takeWhile p := by
  induction l₁ with
  | nil => simp
  | cons c l₁ ih =>
    simp only [List.cons_append, List.takeWhile_cons, h c (by simp), if_true]
    rw [ih (fun x hx => h x (by simp [hx]))]

theorem dropWhile_append_all (p : α → Bool) (l₁ l₂ : List α)
    (h : ∀ c ∈ l₁, p c = true) :
    (l₁ ++ l₂).dropWhile p = l₂.dropWhile p := by
  induction l₁ with
  | nil => simp
  | cons c l₁ ih =>
    simp only [List.cons_append, List.dropWhile_cons, h c (by simp), if_true]
    exact ih (fun x hx => h x (by simp [hx]))

theorem unrender_renderPQ (p : PackageQuery) (hat : atFree p.name = true) :
    unrender (renderPQ p) = p := by
  have hdata : (renderPQ p).data = p.name.data ++ '@' :: p.version.data := by
    simp [renderPQ, String.data_append]
  have hall : ∀ c ∈ p.name.data, (c ≠ '@' : Bool) = true := by
    intro c hc
    have := List.all_eq_true.mp hat c hc
    simpa using this
  rw [unrender, hdata]
  rw [takeWhile_append_all _ _ _ hall, dropWhile_append_all _ _ _ hall]
  have h1 : (('@' :: p.version.data).takeWhile fun c => (c ≠ '@' : Bool)) = [] := by
    simp [List.takeWhile_cons]
  have h2 : (('@' :: p.version.data).dropWhile fun c => (c ≠ '@' : Bool)) =
      '@' :: p.version.data := by
    simp [List.dropWhile_cons]
  rw [h1, h2, List.append_nil, List.tail_cons]

theorem append_comma_inj (a : List Char) :
    ∀ (b x y : List Char), (∀ c ∈ a, c ≠ ',') → (∀ c ∈ b, c ≠ ',') →
      a ++ ',' :: x = b ++ ',' :: y → a = b ∧ x = y := by
  induction a with
  | nil =>
    intro b x y _ hb h
    rcases b with _ | ⟨c, b⟩
    · simpa using h
    · simp only [List.nil_append, List.cons_append, List.cons.injEq] at h
      exact absurd h.1.symm (hb c (by simp))
  | cons c a ih =>
    intro b x y ha hb h
    rcases b with _ | ⟨d, b⟩
    · simp only [List.cons_append, List.nil_append, List.cons.injEq] at h
      exact absurd h.1 (ha c (by simp))
    · simp only [List.cons_append, List.cons.injEq] at h
      obtain ⟨rfl, h2⟩ := h
      obtain ⟨h3, h4⟩ := ih b x y (fun z hz => ha z (by simp [hz]))
        (fun z hz => hb z (by simp [hz])) h2
      exact ⟨by rw [h3], h4⟩

theorem commaFree_spec (s : String) (h : commaFree s = true) :
    ∀ c ∈ s.data, c ≠ ',' := by
  intro c hc
  have := List.all_eq_true.mp h c hc
  simpa using this

theorem joinComma_inj : ∀ (s₁ s₂ : List String),
    (∀ s ∈ s₁, commaFree s = true ∧ s ≠ "") →
    (∀ s ∈ s₂, commaFree s = true ∧ s ≠ "") →
    joinComma s₁ = joinComma s₂ → s₁ = s₂ := by
  intro s₁
  induction s₁ with
  | nil =>
    intro s₂ _ h2 h
    rcases s₂ with _ | ⟨b, s₂⟩
    · rfl
    · exfalso
      rcases s₂ with _ | ⟨b', rest⟩
      · exact (h2 b (by simp)).2 h.symm
      · have hd := congrArg String.data h
        rw [show joinComma [] = "" from rfl,
          show joinComma (b :: b' :: rest) = b ++ "," ++ joinComma (b' :: rest) from rfl]
          at hd
        simp [String.data_append] at hd
  | cons a s₁ ih =>
    intro s₂ h1 h2 h
    rcases s₂ with _ | ⟨b, s₂⟩
    · exfalso
      rcases s₁ with _ | ⟨a', rest⟩
      · exact (h1 a (by simp)).2 h
      · have hd := congrArg String.data h
        rw [show joinComma (a :: a' :: rest) = a ++ "," ++ joinComma (a' :: rest) from rfl,
          show joinComma [] = "" from rfl] at hd
        simp [String.data_append] at hd
    · rcases s₁ with _ | ⟨a', rest₁⟩ <;> rcases s₂ with _ | ⟨b', rest₂⟩
      · rw [show joinComma [a] = a from rfl, show joinComma [b] = b from rfl] at h
        rw [h]
      · exfalso
        rw [show joinComma [a] = a from rfl,
          show joinComma (b :: b' :: rest₂) = b ++ "," ++ joinComma (b' :: rest₂) from rfl]
          at h
        have hmem : ',' ∈ a.data := by
          have hd := congrArg String.data h
          rw [hd]
          simp [String.data_append]
        exact commaFree_spec a (h1 a (by simp)).1 ',' hmem rfl
      · exfalso
        rw [show joinComma [b] = b from rfl,
          show joinComma (a :: a' :: rest₁) = a ++ "," ++ joinComma (a' :: rest₁) from rfl]
          at h
        have hmem : ',' ∈ b.data := by
          have hd := congrArg String.data h
          rw [← hd]
          simp [String.data_append]
        exact commaFree_spec b (h2 b (by simp)).1 ',' hmem rfl
      · rw [show joinComma (a :: a' :: rest₁) = a ++ "," ++ joinComma (a' :: rest₁) from rfl,
          show joinComma (b :: b' :: rest₂) = b ++ "," ++ joinComma (b' :: rest₂) from rfl]
          at h
        have hd := congrArg String.data h
        simp only [String.data_append] at hd
        simp only [List.append_assoc, List.cons_append, List.nil_append] at hd
        obtain ⟨hab, hjoin⟩ := append_comma_inj a.data b.data
          (joinComma (a' :: rest₁)).data (joinComma (b' :: rest₂)).data
          (commaFree_spec a (h1 a (by simp)).1) (commaFree_spec b (h2 b (by simp)).1) hd
        have hab' : a = b := String.ext hab
        have hjoin' : joinComma (a' :: rest₁) = joinComma (b' :: rest₂) :=
          String.ext hjoin
        have htail := ih (b' :: rest₂) (fun x hx => h1 x (by simp [hx]))
          (fun x hx => h2 x (by simp [hx])) hjoin'
        rw [hab', htail]

/-! ### Cache-key theorems, for every admissible comparator -/

theorem getKeyWith_filter_nil (lc : String → String → Bool)
    (l : List PackageQuery) (h : l.filter pqValid = []) :
    getKeyWith lc (some l) = "osv:v1:" := by
  rw [getKeyWith, h]
  simp [stableSort, joinComma]

theorem getKey_filter_nil (l : List PackageQuery) (h : l.filter pqValid = []) :
    getKey (some l) = "osv:v1:" :=
  getKeyWith_filter_nil codePointLe l h

theorem getKeyWith_perm (lc : String → String → Bool)
    (htrans : ∀ a b c, lc a b = true → lc b c = true → lc a c = true)
    (htotal : ∀ a b, lc a b = true ∨ lc b a = true)
    (l₁ l₂ : List PackageQuery) (hperm : List.Perm l₁ l₂)
    (huniq : ∀ a ∈ l₁, ∀ b ∈ l₁,
      lc a.name b.name = true → lc b.name a.name = true → a = b) :
    getKeyWith lc (some l₁) = getKeyWith lc (some l₂) := by
  rw [getKeyWith, getKeyWith]
  have hpf : List.Perm (l₁.filter pqValid) (l₂.filter pqValid) := hperm.filter _
  have hs : stableSort (fun a b => lc a.name b.name) (l₁.filter pqValid) =
      stableSort (fun a b => lc a.name b.name) (l₂.filter pqValid) := by
    apply eq_of_perm_of_sorted_of_unique (fun a b => lc a.name b.name)
    · exact ((stableSort_perm _ _).trans hpf).trans (stableSort_perm _ _).symm
    · exact stableSort_pairwise (fun a b : PackageQuery => lc a.name b.name)
        (fun a b c => htrans a.name b.name c.name)
        (fun a b => htotal a.name b.name) _
    · exact stableSort_pairwise (fun a b : PackageQuery => lc a.name b.name)
        (fun a b c => htrans a.name b.name c.name)
        (fun a b => htotal a.name b.name) _
    · intro a ha b hb hab hba
      have ha' : a ∈ l₁ :=
        List.mem_of_mem_filter ((stableSort_perm _ _).mem_iff.mp ha)
      have hb' : b ∈ l₁ :=
        List.mem_of_mem_filter ((stableSort_perm _ _).mem_iff.mp hb)
      exact huniq a ha' b hb' hab hba
  rw [hs]

theorem renderPQ_data (p : PackageQuery) :
    (renderPQ p).data = p.name.data ++ '@' :: p.version.data := by
  simp [renderPQ, String.data_append]

theorem getKeyWith_inj (lc : String → String → Bool)
    (l₁ l₂ : List PackageQuery)
    (hg1 : ∀ p ∈ l₁, pqGoodChars p = true) (hg2 : ∀ p ∈ l₂, pqGoodChars p = true)
    (hkey : getKeyWith lc (some l₁) = getKeyWith lc (some l₂)) :
    List.Perm (l₁.filter pqValid) (l₂.filter pqValid) := by
  rw [getKeyWith, getKeyWith] at hkey
  have hjoin : joinComma ((stableSort (fun a b => lc a.name b.name)
        (l₁.filter pqValid)).map renderPQ) =
      joinComma ((stableSort (fun a b => lc a.name b.name)
        (l₂.filter pqValid)).map renderPQ) := by
    have hd := congrArg String.data hkey
    simp only [String.data_append] at hd
    exact String.ext (List.append_cancel_left hd)
  have hcond : ∀ (l : List PackageQuery), (∀ p ∈ l, pqGoodChars p = true) →
      ∀ s ∈ (stableSort (fun a b => lc a.name b.name)
        (l.filter pqValid)).map renderPQ,
        commaFree s = true ∧ s ≠ "" := by
    intro l hg s hs
    rcases List.mem_map.mp hs with ⟨p, hp, rfl⟩
    have hpl : p ∈ l.filter pqValid := (stableSort_perm _ _).mem_iff.mp hp
    have hmem : p ∈ l := List.mem_of_mem_filter hpl
    have hval : pqValid p = true := List.of_mem_filter hpl
    have hgood := hg p hmem
    simp only [pqGoodChars, Bool.and_eq_true] at hgood
    constructor
    · rw [commaFree, List.all_eq_true]
      intro c hc
      rw [renderPQ_data] at hc
      rcases List.mem_append.mp hc with hc | hc
      · simpa using commaFree_spec p.name hgood.1.1 c hc
      · rcases List.mem_cons.mp hc with rfl | hc
        · decide
        · simpa using commaFree_spec p.version hgood.1.2 c hc
    · intro he
      have hd := congrArg String.data he
      rw [renderPQ_data] at hd
      simp at hd
  have hmaps := joinComma_inj _ _ (hcond l₁ hg1) (hcond l₂ hg2) hjoin
  have hperm1 : List.Perm ((l₁.filter pqValid).map renderPQ)
      ((l₂.filter pqValid).map renderPQ) := by
    have p1 := ((stableSort_perm (fun a b : PackageQuery => lc a.name b.name)
      (l₁.filter pqValid)).map renderPQ).symm
    have p2 := (stableSort_perm (fun a b : PackageQuery => lc a.name b.name)
      (l₂.filter pqValid)).map renderPQ
    rw [hmaps] at p1
    exact p1.trans p2
  have hun : ∀ (l : List PackageQuery), (∀ p ∈ l, pqGoodChars p = true) →
      ((l.filter pqValid).map renderPQ).map unrender = l.filter pqValid := by
    intro l hg
    rw [List.map_map]
    have heach : ∀ p ∈ l.filter pqValid, (unrender ∘ renderPQ) p = id p := by
      intro p hp
      have hgood := hg p (List.mem_of_mem_filter hp)
      simp only [pqGoodChars, Bool.and_eq_true] at hgood
      simpa using unrender_renderPQ p hgood.2
    rw [List.map_congr_left heach, List.map_id]
  have hfin := hperm1.map unrender
  rw [hun l₁ hg1, hun l₂ hg2] at hfin
  exact hfin

/-! ### Fallback-only classification lemmas -/

theorem cvssFallback_unknown (v : OsvVulnerability)
    (h : headScoreUnparseable v = true) : cvssFallback v = .unknown := by
  rcases hh : v.severity.bind List.head? with _ | entry
  · simp [cvssFallback, hh]
  · rcases hs : entry.score with _ | s
    · simp [cvssFallback, hh, hs]
    · simp only [headScoreUnparseable, hh, hs] at h
      rcases he : s.isEmpty with _ | _
      · have hr : (regexCapture s.data).isNone = true := by
          rw [he] at h
          simpa using h
        rcases hrc : regexCapture s.data with _ | cs
        · simp [cvssFallback, hh, hs, he, hrc]
        · rw [hrc] at hr
          cases hr
      · simp [cvssFallback, hh, hs, he]

theorem getSeverityLevel_of_noMatch (v : OsvVulnerability)
    (h : dbNoMatch v = true) : getSeverityLevel v = cvssFallback v := by
  rcases hdb : (v.database_specific.bind DatabaseSpecific.severity).map toLowerStr
    with _ | s
  · simp [getSeverityLevel, hdb]
  · simp only [dbNoMatch, hdb] at h
    rcases he : s.isEmpty with _ | _
    · rw [he] at h
      simp only [Bool.false_or, Bool.not_eq_true', Bool.or_eq_false_iff,
        decide_eq_false_iff_not] at h
      simp [getSeverityLevel, hdb, he, h.1.1.1.1, h.1.1.1.2, h.1.1.2, h.1.2, h.2]
    · simp [getSeverityLevel, hdb, he]

theorem getSeverityLevel_severity_head (v : OsvVulnerability)
    (sev sev' : Option (List SeverityEntry))
    (h : sev.bind List.head? = sev'.bind List.head?) :
    getSeverityLevel { v with severity := sev } =
      getSeverityLevel { v with severity := sev' } := by
  have hc : cvssFallback { v with severity := sev } =
      cvssFallback { v with severity := sev' } := by
    simp only [cvssFallback, h]
  rcases hdb : (v.database_specific.bind DatabaseSpecific.severity).map toLowerStr
    with _ | s
  · simpa [getSeverityLevel, hdb] using hc
  · simp only [getSeverityLevel, hdb]
    split_ifs <;> first | rfl | exact hc

/-! ### Inverting a successful per-package query -/

theorem queryOsv_inv (resp : OsvQueryResponse) (name version : String)
    (pv : PackageVulnerabilities)
    (h : queryOsvForPackage (some resp) name version = some pv) :
    (resp.vulns.getD []).isEmpty = false ∧
    pv = { package := name, version := version,
           vulnerabilities :=
             (processVulns
               { total := (resp.vulns.getD []).length, critical := 0, high := 0,
                 moderate := 0, low := 0 }
               (stableSort vulnLE (resp.vulns.getD []))).2,
           counts :=
             (processVulns
               { total := (resp.vulns.getD []).length, critical := 0, high := 0,
                 moderate := 0, low := 0 }
               (stableSort vulnLE (resp.vulns.getD []))).1 } := by
  simp only [queryOsvForPackage] at h
  rcases hne : (resp.vulns.getD []).isEmpty with _ | _
  · rw [hne] at h
    simp only [Bool.false_eq_true, if_false, Option.some.injEq] at h
    exact ⟨rfl, h.symm⟩
  · rw [hne] at h
    simp at h

/-! ### The claims -/

/-- C1 (counterexample): the key is not invariant under permutation when two
entries share a name with different versions (the stable sort keeps their
input order), and two inputs with different multisets of (name, version)
pairs can collide: a version containing a comma, or an `@` moving between
name and version, reproduces another input's key. -/
theorem claim1_counterexample :
    (List.Perm [PackageQuery.mk "a" "1", PackageQuery.mk "a" "2"]
        [PackageQuery.mk "a" "2", PackageQuery.mk "a" "1"] ∧
      getKey (some [PackageQuery.mk "a" "1", PackageQuery.mk "a" "2"]) ≠
        getKey (some [PackageQuery.mk "a" "2", PackageQuery.mk "a" "1"])) ∧
    (¬ List.Perm ([PackageQuery.mk "a" "1,b@2"].filter pqValid)
        (([PackageQuery.mk "a" "1", PackageQuery.mk "b" "2"]).filter pqValid) ∧
      getKey (some [PackageQuery.mk "a" "1,b@2"]) =
        getKey (some [PackageQuery.mk "a" "1", PackageQuery.mk "b" "2"])) ∧
    (¬ List.Perm ([PackageQuery.mk "a@1" "2"].filter pqValid)
        ([PackageQuery.mk "a" "1@2"].filter pqValid) ∧
      getKey (some [PackageQuery.mk "a@1" "2"]) =
        getKey (some [PackageQuery.mk "a" "1@2"])) := by
  exact ⟨⟨by decide, by decide⟩, ⟨by decide, by decide⟩, ⟨by decide, by decide⟩⟩

/-- C1 (amended): for every admissible embedding `lc` of the comparator
induced by `localeCompare` — any total, transitive Bool relation, ties
between distinct names allowed, as ICU produces them — the cache key is
invariant under permutation of the input list provided the comparator never
ties two distinct entries of the list, and two inputs whose filtered lists
have different multisets of (name, version) entries produce different keys
provided names and versions contain no comma and names contain no `@`
(this half for every comparator, with no side condition on it). -/
theorem claim1_amended :
    (∀ (lc : String → String → Bool),
      (∀ a b c, lc a b = true → lc b c = true → lc a c = true) →
      (∀ a b, lc a b = true ∨ lc b a = true) →
      ∀ (l₁ l₂ : List PackageQuery), List.Perm l₁ l₂ →
      (∀ a ∈ l₁, ∀ b ∈ l₁,
        lc a.name b.name = true → lc b.name a.name = true → a = b) →
      getKeyWith lc (some l₁) = getKeyWith lc (some l₂)) ∧
    (∀ (lc : String → String → Bool) (l₁ l₂ : List PackageQuery),
      (∀ p ∈ l₁, pqGoodChars p = true) → (∀ p ∈ l₂, pqGoodChars p = true) →
      ¬ List.Perm (l₁.filter pqValid) (l₂.filter pqValid) →
      getKeyWith lc (some l₁) ≠ getKeyWith lc (some l₂)) :=
  ⟨getKeyWith_perm,
   fun lc l₁ l₂ hg1 hg2 hnp hk => hnp (getKeyWith_inj lc l₁ l₂ hg1 hg2 hk)⟩

/-- C1 (witness): the amended theorem applied at the code-point comparator
instance and concrete inputs. -/
theorem claim1_witness :
    getKeyWith codePointLe
        (some [PackageQuery.mk "a" "1", PackageQuery.mk "b" "2"]) =
      getKeyWith codePointLe
        (some [PackageQuery.mk "b" "2", PackageQuery.mk "a" "1"]) ∧
    getKeyWith codePointLe (some [PackageQuery.mk "a" "1"]) ≠
      getKeyWith codePointLe (some [PackageQuery.mk "b" "2"]) :=
  ⟨claim1_amended.1 codePointLe codePointLe_trans codePointLe_total
      _ _ (List.Perm.swap _ _ _) (by decide),
   claim1_amended.2 codePointLe _ _ (by decide) (by decide) (by decide)⟩

/-- C2 (counterexample): an absent list keys as the sentinel `osv:empty`, but
an empty list does not (an empty array is truthy in JavaScript): it keys as
`osv:v1:`, which moreover coincides with the key of a non-empty list whose
entries are all invalid. -/
theorem claim2_counterexample :
    getKey none = "osv:empty" ∧
    getKey (some []) = "osv:v1:" ∧
    getKey (some [PackageQuery.mk "" ""]) = "osv:v1:" ∧
    ("osv:v1:" : String) ≠ "osv:empty" :=
  ⟨rfl, by decide, by decide, by decide⟩

/-- C2 (amended): only an absent (falsy) `packages` value yields the sentinel
`osv:empty`; a present list whose filtered form is empty — in particular the
empty list and the all-invalid list — yields the distinct key `osv:v1:`, so
"no packages" and "all packages invalid" share a key while "absent" differs. -/
theorem claim2_amended :
    getKey none = "osv:empty" ∧
    (∀ l : List PackageQuery, l.filter pqValid = [] →
      getKey (some l) = "osv:v1:") ∧
    ("osv:empty" : String) ≠ "osv:v1:" :=
  ⟨rfl, getKey_filter_nil, by decide⟩

/-- C2 (witness): the amended theorem applied to a concrete all-invalid list. -/
theorem claim2_witness :
    getKey (some [PackageQuery.mk "" "x"]) = "osv:v1:" :=
  claim2_amended.2.1 _ (by decide)

/-- C3 (counterexample): a request body without a `packages` field does not
return an empty result map; it fails the validation with the 400 client
error. -/
theorem claim3_counterexample :
    handler (some (.vObj [("other", .vNum 1)])) (fun _ _ => none) =
      .error (.clientError 400 "Request body must contain a packages array") ∧
    handler (some (.vObj [("other", .vNum 1)])) (fun _ _ => none) ≠
      .ok ([], []) := by
  have h1 : handler (some (.vObj [("other", .vNum 1)])) (fun _ _ => none) =
      .error (.clientError 400 "Request body must contain a packages array") := rfl
  refine ⟨h1, fun hcontra => ?_⟩
  rw [h1] at hcontra
  exact Except.noConfusion hcontra

/-- C3 (amended): a present but empty `packages` list returns `{results: {}}`
with zero upstream call waves; an absent `packages` field (or absent body)
instead fails with the 400 client error. -/
theorem claim3_amended :
    (∀ (body : Option JsVal) (fetch : String → String → Option OsvQueryResponse),
      packagesField body = .vArr [] → handler body fetch = .ok ([], [])) ∧
    (∀ (body : Option JsVal) (fetch : String → String → Option OsvQueryResponse),
      packagesField body = .vUndefined →
      handler body fetch =
        .error (.clientError 400 "Request body must contain a packages array")) :=
  ⟨handler_of_empty,
   fun body fetch h => handler_of_not_array body fetch (by rw [h]; rfl)⟩

/-- C3 (witness): the amended theorem applied to concrete bodies. -/
theorem claim3_witness :
    handler (some (.vObj [("packages", .vArr [])])) (fun _ _ => none) =
      .ok ([], []) ∧
    handler (some (.vObj [])) (fun _ _ => none) =
      .error (.clientError 400 "Request body must contain a packages array") ∧
    handler none (fun _ _ => none) =
      .error (.clientError 400 "Request body must contain a packages array") :=
  ⟨claim3_amended.1 _ _ rfl, claim3_amended.2 _ _ rfl, claim3_amended.2 _ _ rfl⟩

/-- C4: the severity classifier is total by construction and agrees, on every
record, with the specification's ordered fallback chain (database-specific
word map, then the trailing decimal number after the last `/` or `:` of the
first severity entry's score — anchored to the end of the string — bucketed
at 9, 7, 4 and 0, then `unknown`); in particular a malformed score string
and a score of exactly 0 both classify as `unknown`, not `low`. -/
theorem claim4_severity_chain :
    (∀ v : OsvVulnerability, getSeverityLevel v = specClassify v) ∧
    getSeverityLevel
      { id := "X", summary := none, aliases := none, database_specific := none,
        severity := some [{ score := some "CVSS:3.1/0" }] } = .unknown ∧
    getSeverityLevel
      { id := "X", summary := none, aliases := none, database_specific := none,
        severity := some [{ score := some "not-a-number" }] } = .unknown :=
  ⟨getSeverityLevel_eq_specClassify, by decide, by decide⟩

/-- C5: every successful per-package result lists its vulnerability summaries
in non-decreasing severity rank, and for each severity level the summaries
of that level appear exactly in upstream order (stability, stated as a
filter equation). -/
theorem claim5_sorted_stable (resp : OsvQueryResponse) (name version : String)
    (pv : PackageVulnerabilities)
    (h : queryOsvForPackage (some resp) name version = some pv) :
    pv.vulnerabilities.Pairwise
      (fun a b => severityOrder a.severity ≤ severityOrder b.severity) ∧
    ∀ lvl, pv.vulnerabilities.filter (fun s => s.severity = lvl) =
      ((resp.vulns.getD []).filter (fun v => getSeverityLevel v = lvl)).map
        mkSummary := by
  obtain ⟨-, hpv⟩ := queryOsv_inv resp name version pv h
  subst hpv
  constructor
  · simp only [processVulns_snd]
    rw [List.pairwise_map]
    have hp := stableSort_pairwise vulnLE vulnLE_trans vulnLE_total
      (resp.vulns.getD [])
    exact hp.imp (fun hab => by simpa [vulnLE, mkSummary] using hab)
  · intro lvl
    simp only [processVulns_snd]
    rw [List.filter_map]
    have hcong : (stableSort vulnLE (resp.vulns.getD [])).filter
        ((fun s => decide (s.severity = lvl)) ∘ mkSummary) =
        (stableSort vulnLE (resp.vulns.getD [])).filter
        (fun v => decide (getSeverityLevel v = lvl)) :=
      List.filter_congr (fun v _ => by simp [mkSummary])
    rw [hcong, stableSort_filter vulnLE _ vulnLE_trans vulnLE_total ?_]
    intro a b ha hb
    simp only [decide_eq_true_eq] at ha hb
    simp [vulnLE, ha, hb]

/-- C5 (witness): the theorem applied to a concrete two-record response. -/
theorem claim5_witness :
    ((queryOsvForPackage
        (some { vulns := some [
          { id := "A", summary := none, aliases := none,
            database_specific := some { severity := some "low" },
            severity := none },
          { id := "B", summary := none, aliases := none,
            database_specific := some { severity := some "critical" },
            severity := none }] })
        "a" "1").getD
      { package := "", version := "", vulnerabilities := [],
        counts := { total := 0, critical := 0, high := 0, moderate := 0,
                    low := 0 } }).vulnerabilities.Pairwise
      (fun a b => severityOrder a.severity ≤ severityOrder b.severity) :=
  (claim5_sorted_stable
    { vulns := some [
        { id := "A", summary := none, aliases := none,
          database_specific := some { severity := some "low" },
          severity := none },
        { id := "B", summary := none, aliases := none,
          database_specific := some { severity := some "critical" },
          severity := none }] }
    "a" "1" _ (by decide)).1

/-- C6: for every successful per-package result, `counts.total` equals both
the number of upstream records and the length of the summary list, each
named counter counts exactly the records classified at its level, and the
named counters plus the number of `unknown`-classified records sum to the
total (the unknown records have no dedicated counter). -/
theorem claim6_counts (resp : OsvQueryResponse) (name version : String)
    (pv : PackageVulnerabilities)
    (h : queryOsvForPackage (some resp) name version = some pv) :
    pv.counts.total = (resp.vulns.getD []).length ∧
    pv.counts.total = pv.vulnerabilities.length ∧
    pv.counts.critical = countSev .critical (resp.vulns.getD []) ∧
    pv.counts.high = countSev .high (resp.vulns.getD []) ∧
    pv.counts.moderate = countSev .moderate (resp.vulns.getD []) ∧
    pv.counts.low = countSev .low (resp.vulns.getD []) ∧
    pv.counts.critical + pv.counts.high + pv.counts.moderate + pv.counts.low +
      countSev .unknown (resp.vulns.getD []) = pv.counts.total := by
  obtain ⟨-, hpv⟩ := queryOsv_inv resp name version pv h
  subst hpv
  have hperm := stableSort_perm vulnLE (resp.vulns.getD [])
  have hcount : ∀ lvl, countSev lvl (stableSort vulnLE (resp.vulns.getD [])) =
      countSev lvl (resp.vulns.getD []) := fun lvl => hperm.countP_eq _
  have hlen := hperm.length_eq
  refine ⟨processVulns_total _ _, ?_, ?_, ?_, ?_, ?_, ?_⟩
  · rw [processVulns_total, processVulns_snd, List.length_map, hlen]
  · simp [processVulns_critical, hcount]
  · simp [processVulns_high, hcount]
  · simp [processVulns_moderate, hcount]
  · simp [processVulns_low, hcount]
  · simp only [processVulns_total, processVulns_critical, processVulns_high,
      processVulns_moderate, processVulns_low, hcount]
    have hsum := countSev_sum (resp.vulns.getD [])
    simp only at hsum ⊢
    omega

/-- C6 (witness): the theorem applied to a concrete two-record response. -/
theorem claim6_witness :
    ((queryOsvForPackage
        (some { vulns := some [
          { id := "A", summary := none, aliases := none,
            database_specific := some { severity := some "low" },
            severity := none },
          { id := "B", summary := none, aliases := none,
            database_specific := some { severity := none },
            severity := none }] })
        "a" "1").getD
      { package := "", version := "", vulnerabilities := [],
        counts := { total := 0, critical := 0, high := 0, moderate := 0,
                    low := 0 } }).counts.total =
      (({ vulns := some [
          { id := "A", summary := none, aliases := none,
            database_specific := some { severity := some "low" },
            severity := none },
          { id := "B", summary := none, aliases := none,
            database_specific := some { severity := none },
            severity := none }] } : OsvQueryResponse).vulns.getD []).length :=
  (claim6_counts
    { vulns := some [
        { id := "A", summary := none, aliases := none,
          database_specific := some { severity := some "low" },
          severity := none },
        { id := "B", summary := none, aliases := none,
          database_specific := some { severity := none },
          severity := none }] }
    "a" "1" _ (by decide)).1

/-- C7: a failed upstream call and a zero-record response both make the
per-package query return `none`, no failure escapes, and a name all of whose
valid occurrences fail or report zero records is entirely absent from the
final result map. -/
theorem claim7_silent_absence :
    (∀ name version : String, queryOsvForPackage none name version = none) ∧
    (∀ (resp : OsvQueryResponse) (name version : String),
      resp.vulns.getD [] = [] →
      queryOsvForPackage (some resp) name version = none) ∧
    (∀ (fetch : String → String → Option OsvQueryResponse)
       (valid : List (String × String)) (n : String),
      (∀ v, (n, v) ∈ valid → queryOsvForPackage (fetch n v) n v = none) →
      n ∉ (orchestrate fetch valid).map Prod.fst) := by
  refine ⟨fun _ _ => rfl, ?_, ?_⟩
  · intro resp name version h
    simp [queryOsvForPackage, h]
  · intro fetch valid n h
    rw [orchestrate_keys]
    rintro ⟨v, hv, hsucc⟩
    exact hsucc (h v hv)

/-- C7 (witness): the theorem applied to concrete failing and empty lookups. -/
theorem claim7_witness :
    queryOsvForPackage none "a" "1" = none ∧
    queryOsvForPackage (some { vulns := none }) "a" "1" = none ∧
    "a" ∉ (orchestrate (fun _ _ => none) [("a", "1")]).map Prod.fst :=
  ⟨claim7_silent_absence.1 "a" "1",
   claim7_silent_absence.2.1 _ "a" "1" rfl,
   claim7_silent_absence.2.2 _ _ "a" (fun _ _ => rfl)⟩

/-- C8 (counterexample): a body whose `packages` is an array containing
`null` does not yield a result map and does not fail with the 400 client
error — the filter predicate dereferences the null entry and the handler
dies with a TypeError. -/
theorem claim8_counterexample :
    handler (some (.vObj [("packages", .vArr [JsVal.vNull])])) (fun _ _ => none) =
      .error .typeError ∧
    HandlerError.typeError ≠
      HandlerError.clientError 400 "Request body must contain a packages array" := by
  exact ⟨rfl, by decide⟩

/-- C8 (amended): whenever `body?.packages` is not an array — body absent,
field absent, or any non-array value — the handler fails with exactly the
400 client error and its fixed message; and every body whose `packages`
array contains no null or undefined entry yields a successful result map. -/
theorem claim8_amended :
    (∀ (body : Option JsVal) (fetch : String → String → Option OsvQueryResponse),
      isArrB (packagesField body) = false →
      handler body fetch =
        .error (.clientError 400 "Request body must contain a packages array")) ∧
    (∀ (body : Option JsVal) (fetch : String → String → Option OsvQueryResponse)
       (elems : List JsVal),
      packagesField body = .vArr elems → (∀ e ∈ elems, notNullish e = true) →
      isOkB (handler body fetch) = true) := by
  refine ⟨handler_of_not_array, ?_⟩
  intro body fetch elems harr hnn
  obtain ⟨out, hout⟩ := handler_of_array_ok body fetch elems harr hnn
  rw [hout]
  rfl

/-- C8 (witness): the amended theorem applied to a non-list `packages` value
and to a well-formed body. -/
theorem claim8_witness :
    handler (some (.vObj [("packages", .vStr "not-a-list")])) (fun _ _ => none) =
      .error (.clientError 400 "Request body must contain a packages array") ∧
    isOkB (handler (some (.vObj [("packages",
        .vArr [JsVal.vObj [("name", .vStr "lodash"),
                           ("version", .vStr "4.17.21")]])]))
      (fun _ _ => none)) = true :=
  ⟨claim8_amended.1 _ _ rfl, claim8_amended.2 _ _ _ rfl (by decide)⟩

/-- C9: on a validated non-empty list the handler issues exactly the waves
given by partitioning the list into consecutive chunks of 10 and folds each
wave's merged results before the next wave; a 23-entry list gives exactly
the wave sizes 10, 10, 3; and a successful lookup of a listed pair reaches
the result map no matter how the oracle fails elsewhere. -/
theorem claim9_wave_batching :
    (∀ (body : Option JsVal) (fetch : String → String → Option OsvQueryResponse)
       (elems : List JsVal) (valid : List (String × String)),
      packagesField body = .vArr elems → filterValid elems = .ok valid →
      valid ≠ [] →
      handler body fetch = .ok (orchestrate fetch valid, chunksOf valid)) ∧
    (∀ valid : List (String × String), valid.length = 23 →
      (chunksOf valid).map List.length = [10, 10, 3]) ∧
    (∀ (fetch : String → String → Option OsvQueryResponse)
       (valid : List (String × String)) (n v : String),
      (n, v) ∈ valid → queryOsvForPackage (fetch n v) n v ≠ none →
      n ∈ (orchestrate fetch valid).map Prod.fst) :=
  ⟨handler_of_valid, chunksOf_sizes_23,
   fun fetch valid n v hv hsucc =>
     (orchestrate_keys fetch valid n).mpr ⟨v, hv, hsucc⟩⟩

/-- C9 (witness): the theorem applied to a one-package body, a 23-entry
list, and a succeeding lookup. -/
theorem claim9_witness :
    handler (some (.vObj [("packages",
        .vArr [JsVal.vObj [("name", .vStr "lodash"),
                           ("version", .vStr "4.17.21")]])]))
      (fun _ _ => none) =
      .ok (orchestrate (fun _ _ => none) [("lodash", "4.17.21")],
           chunksOf [("lodash", "4.17.21")]) ∧
    (chunksOf (List.replicate 23 ("p", "1"))).map List.length = [10, 10, 3] ∧
    "a" ∈ (orchestrate
      (fun _ _ => some { vulns := some [
        { id := "B", summary := none, aliases := none,
          database_specific := some { severity := some "critical" },
          severity := none }] })
      [("a", "1")]).map Prod.fst :=
  ⟨claim9_wave_batching.1 _ _ _ _ rfl rfl (by decide),
   claim9_wave_batching.2.1 _ (by decide),
   claim9_wave_batching.2.2 _ _ "a" "1" (by decide) (by decide)⟩

/-- C10: the classifier consults only the head of the severity list — the
result is unchanged by any replacement of the tail — and when the
database-specific branch does not fire and the first entry is absent or has
no parseable score, the result is `unknown` regardless of later entries. -/
theorem claim10_first_entry_only :
    (∀ (v : OsvVulnerability) (e : SeverityEntry) (t t' : List SeverityEntry),
      getSeverityLevel { v with severity := some (e :: t) } =
        getSeverityLevel { v with severity := some (e :: t') }) ∧
    (∀ v : OsvVulnerability, dbNoMatch v = true → headScoreUnparseable v = true →
      getSeverityLevel v = .unknown) := by
  constructor
  · intro v e t t'
    exact getSeverityLevel_severity_head v (some (e :: t)) (some (e :: t')) rfl
  · intro v h1 h2
    rw [getSeverityLevel_of_noMatch v h1]
    exact cvssFallback_unknown v h2

/-- C10 (witness): a record whose first severity entry is unparseable
classifies as unknown even though its second entry scores 9.8. -/
theorem claim10_witness :
    getSeverityLevel
      { id := "X", summary := none, aliases := none, database_specific := none,
        severity := some [{ score := some "oops" },
                          { score := some "CVSS:3.1/9.8" }] } = .unknown :=
  claim10_first_entry_only.2 _ (by decide) (by decide)

/-! ### Sanity checks on concrete inputs -/

example :
    getSeverityLevel
      { id := "X", summary := none, aliases := none,
        database_specific := some { severity := some "HIGH" },
        severity := some [{ score := some "CVSS:3.1/9.8" }] } = .high := by decide

example :
    getSeverityLevel
      { id := "X", summary := none, aliases := none, database_specific := none,
        severity := some [{ score := some "CVSS:3.1/9.8" }] } = .critical := by decide

example :
    getSeverityLevel
      { id := "X", summary := none, aliases := none, database_specific := none,
        severity := some [{ score := some "CVSS:3.1/0" }] } = .unknown := by decide

example :
    getSeverityLevel
      { id := "X", summary := none, aliases := none, database_specific := none,
        severity := some [{ score := some "7.5" }] } = .high := by decide

example :
    getSeverityLevel
      { id := "X", summary := none, aliases := none, database_specific := none,
        severity := some [{ score := some "garbage" }] } = .unknown := by decide


end Npmx
